import Mathlib

/-!
Shallow embedding of the temporal signal-extraction pipeline in
`backend/ai_agents/action_timeline.py`, together with proofs of the
spec's claims about it.

Modelling conventions:
* Python floats are modelled by `ℚ`.  `round(x, 3)` is modelled by
  `round3` (round half up instead of Python's round-half-to-even; no
  claim below depends on tie behaviour at an exact half-thousandth).
* External calls (the vision/description/summarizer/justification
  models, ffmpeg/ffprobe) are modelled as parameters: the embedding
  receives their answers as function arguments and is faithful to how
  the Python code requests, orders, windows and merges those answers.
* Python lists are Lean `List`s; `None` is `Option.none`.
-/

namespace ActionTimeline

/-- Python `round(x, 3)`: round to 3 decimal places. -/
def round3 (x : ℚ) : ℚ := (round (x * 1000) : ℤ) / 1000

/-- `_frame_index_for_timestamp(timestamp, frame_count)`:
`if frame_count <= 0: return 0`, otherwise `int(round(timestamp * FPS))`
clamped to `[0, frame_count - 1]`.  `FPS` (a module global read from the
environment) is passed explicitly. -/
def frame_index_for_timestamp (fps : ℚ) (timestamp : ℚ) (frame_count : ℤ) : ℤ :=
  if frame_count ≤ 0 then 0
  else max 0 (min (frame_count - 1) (round (timestamp * fps)))

/-! ## Scene cut detector (`_detect_scene_cuts`) -/

/-- The `seen`-set deduplication loop of `_detect_scene_cuts`: keeps the
first occurrence of each value, preserving stream order (`seen` models
the Python `set`, as the list of values already kept). -/
def dedupKeepFirst (seen : List ℚ) : List ℚ → List ℚ
  | [] => []
  | v :: rest =>
      if v ∈ seen then dedupKeepFirst seen rest
      else v :: dedupKeepFirst (v :: seen) rest

/-- `_detect_scene_cuts`, modelled from the point where the `pts_time:`
values have been extracted from the ffmpeg diagnostic stream (the
subprocess invocation and the per-line regex scan are I/O; `timestamps`
is the list of extracted values in stream order).  Mirrors
`if not timestamps: return []`, the `round(t, 3)` pass and the
seen-set deduplication. -/
def detect_scene_cuts (timestamps : List ℚ) : List ℚ :=
  if timestamps = [] then []
  else dedupKeepFirst [] (timestamps.map round3)

/-! ## Bounded parallel describer (`_parallel_map`) -/

/-- `_parallel_map(items, func, max_workers)`.  The thread pool is
modelled by the completion order of the submitted futures: `order` is
the sequence of original indices in the order `as_completed` yields
them (one future per item), and each completion writes
`func(items[idx])` into the pre-sized result slot `idx`
(`results = [None] * len(items)`; `future_to_index` maps each future
back to its submission index).  The `max_workers <= 1 or len(items) <= 1`
guard runs the sequential list comprehension instead. -/
def parallel_map {α β : Type} (items : List α) (func : α → β) (max_workers : ℤ)
    (order : List ℕ) : List (Option β) :=
  if max_workers ≤ 1 ∨ items.length ≤ 1 then
    items.map (fun item => some (func item))
  else
    order.foldl (fun results idx => results.set idx (items[idx]?.map func))
      (List.replicate items.length (none : Option β))

/-! ## Keyframe selector (the sequential scan in `analyze_video`)

The frame sequence is modelled by the list of perceptual signatures
(`_frame_signature` output: a grayscale grid, modelled as `List ℚ`).
The external vision model `_caption_frame` is a parameter
`caption_frame : ℕ → List String → CaptionPayload` of frame index and
the current known-entities snapshot (its normalized payload already has
the shape produced by `_normalize_caption_payload`). -/

/-- Payload shape returned by `_caption_frame` after
`_normalize_caption_payload`. -/
structure CaptionPayload where
  caption : String
  actions : List String
  objects : List String
  people : List String
  setting : String
  confidence : ℚ
deriving Repr, DecidableEq

/-- A keyframe caption record as appended to `captions`. -/
structure Caption where
  id : ℕ
  t : ℚ
  caption : String
  actions : List String
  objects : List String
  people : List String
  setting : String
  confidence : ℚ
deriving Repr, DecidableEq

/-- An event record `{t_start, t_end, caption_id}`. -/
structure Event where
  t_start : ℚ
  t_end : ℚ
  caption_id : ℕ
deriving Repr, DecidableEq

/-- The tunables read from the environment that drive the scan. -/
structure KeyframeParams where
  fps : ℚ
  diff_threshold : ℚ
  min_gap : ℚ
  max_gap : ℚ

/-- `_diff_score(a, b) = float(np.mean(np.abs(a - b)))`: mean absolute
difference of two equal-size signatures. -/
def diff_score (a b : List ℚ) : ℚ :=
  ((a.zip b).map (fun q => |q.1 - q.2|)).sum / a.length

/-- The `needs_update` decision for one frame: always true with no
previous signature; otherwise
`(diff >= DIFF_THRESHOLD and since_last >= MIN_KEYFRAME_GAP) or
(since_last >= MAX_KEYFRAME_GAP)`. -/
def needs_update (p : KeyframeParams) (prev : Option (List ℚ))
    (last_caption_time timestamp : ℚ) (signature : List ℚ) : Bool :=
  match prev with
  | none => true
  | some prev_sig =>
      let diff := diff_score signature prev_sig
      let since_last := timestamp - last_caption_time
      (decide (diff ≥ p.diff_threshold) && decide (since_last ≥ p.min_gap)) ||
        decide (since_last ≥ p.max_gap)

/-- The known-entities merge loop:
`for item in people + objects: if item and item not in known_entities:
known_entities.append(item)`. -/
def merge_entities (known : List String) : List String → List String
  | [] => known
  | item :: rest =>
      if item ≠ "" ∧ item ∉ known then merge_entities (known ++ [item]) rest
      else merge_entities known rest

/-- The mutable state of the keyframe scan.  `selected` instruments the
per-frame `needs_update` decision (the Python loop has no such list;
it records which frames triggered a caption request). -/
structure KeyframeState where
  captions : List Caption
  events : List Event
  known_entities : List String
  prev_signature : Option (List ℚ)
  last_caption_time : ℚ
  last_caption_id : Option ℕ
  segment_start : ℚ
  selected : List Bool

/-- Initial scan state: `prev_signature = None`,
`last_caption_time = -999.0`, `last_caption_id = None`,
`segment_start = 0.0`, empty `captions`/`events`/`known_entities`. -/
def keyframe_init : KeyframeState :=
  { captions := [], events := [], known_entities := [],
    prev_signature := none, last_caption_time := -999,
    last_caption_id := none, segment_start := 0, selected := [] }

/-- `if last_caption_id is not None: events.append({"t_start":
round(segment_start, 3), "t_end": round(t_close, 3), "caption_id":
last_caption_id})` — the event-closing append, shared by the loop body
and the final flush. -/
def close_event (st : KeyframeState) (t_close : ℚ) : List Event :=
  match st.last_caption_id with
  | some cid =>
      [{ t_start := round3 st.segment_start, t_end := round3 t_close,
         caption_id := cid }]
  | none => []

/-- One iteration of `for index, frame_path in enumerate(frame_files)`:
`timestamp = index / FPS`, decide `needs_update`, and on selection
append the caption, merge entities, close the previous event (when a
previous caption exists) and open a new segment. -/
def keyframe_step (p : KeyframeParams)
    (caption_frame : ℕ → List String → CaptionPayload)
    (st : KeyframeState) (index : ℕ) (signature : List ℚ) : KeyframeState :=
  let timestamp := (index : ℚ) / p.fps
  let upd := needs_update p st.prev_signature st.last_caption_time timestamp signature
  if upd then
    let payload := caption_frame index st.known_entities
    let caption_id := st.captions.length
    let caption : Caption :=
      { id := caption_id, t := round3 timestamp, caption := payload.caption,
        actions := payload.actions, objects := payload.objects,
        people := payload.people, setting := payload.setting,
        confidence := payload.confidence }
    { captions := st.captions ++ [caption]
      events := st.events ++ close_event st timestamp
      known_entities := merge_entities st.known_entities (payload.people ++ payload.objects)
      prev_signature := some signature
      last_caption_time := timestamp
      last_caption_id := some caption_id
      segment_start := timestamp
      selected := st.selected ++ [upd] }
  else
    { st with prev_signature := some signature, selected := st.selected ++ [upd] }

/-- State after scanning the first `k` frames. -/
def keyframe_scan_upto (p : KeyframeParams)
    (caption_frame : ℕ → List String → CaptionPayload)
    (signatures : List (List ℚ)) (k : ℕ) : KeyframeState :=
  ((signatures.enum).take k).foldl
    (fun st iv => keyframe_step p caption_frame st iv.1 iv.2) keyframe_init

/-- The full keyframe scan over the frame sequence. -/
def keyframe_scan (p : KeyframeParams)
    (caption_frame : ℕ → List String → CaptionPayload)
    (signatures : List (List ℚ)) : KeyframeState :=
  (signatures.enum).foldl
    (fun st iv => keyframe_step p caption_frame st iv.1 iv.2) keyframe_init

/-- The `events` track: the scan's events plus the final
`events.append({..., "t_end": round(duration, 3), ...})` executed when
`last_caption_id is not None`. -/
def keyframe_events (p : KeyframeParams)
    (caption_frame : ℕ → List String → CaptionPayload)
    (signatures : List (List ℚ)) (duration : ℚ) : List Event :=
  let st := keyframe_scan p caption_frame signatures
  st.events ++ close_event st duration

/-- The per-state invariant maintained by the keyframe scan once at
least one frame has been processed: a caption exists, the open segment
starts in `[0, bound]`, and the closed events are contiguous from 0 up
to `round3 segment_start`. -/
def EventsInvariant (st : KeyframeState) (bound : ℚ) : Prop :=
  (∃ cid, st.last_caption_id = some cid) ∧
  0 ≤ st.segment_start ∧
  st.segment_start ≤ bound ∧
  List.Chain' (fun a b => a.t_end = b.t_start) st.events ∧
  (∀ e, st.events.head? = some e → e.t_start = 0) ∧
  (∀ e, st.events.getLast? = some e → e.t_end = round3 st.segment_start) ∧
  (st.events = [] → st.segment_start = 0) ∧
  (∀ e ∈ st.events, e.t_start ≤ e.t_end)

/-! ## Scene segment boundaries (`analyze_video`)

`scene_marks = sorted(set([0.0] + scene_cuts + [duration]))`; adjacent
mark pairs with `t_end <= t_start` are skipped; each surviving pair
becomes one scene segment request whose result record carries
`"t_start": round(t_start, 3)` and `"t_end": round(t_end, 3)` (the
externally produced description payload and the sequential `id` do not
affect the boundary structure and are not modelled). -/

/-- A scene segment's interval as stored in the result record. -/
structure SceneSegment where
  t_start : ℚ
  t_end : ℚ
deriving Repr, DecidableEq

/-- `sorted(set([0.0] + scene_cuts + [duration]))`. -/
def scene_marks (scene_cuts : List ℚ) (duration : ℚ) : List ℚ :=
  ((0 :: scene_cuts ++ [duration]).dedup).insertionSort (· ≤ ·)

/-- The `for idx in range(len(scene_marks) - 1)` loop: pair adjacent
marks, `continue` on `t_end <= t_start`, emit the segment interval
otherwise. -/
def segments_of_marks : List ℚ → List SceneSegment
  | [] => []
  | [_] => []
  | a :: b :: rest =>
      if b ≤ a then segments_of_marks (b :: rest)
      else { t_start := round3 a, t_end := round3 b } :: segments_of_marks (b :: rest)

/-- The scene segment intervals produced by `analyze_video`. -/
def scene_segments_of (scene_cuts : List ℚ) (duration : ℚ) : List SceneSegment :=
  segments_of_marks (scene_marks scene_cuts duration)

/-! ## Request collapsing (`_describe_frames_at_times`, and identically
`_caption_frames_at_times`)

The frame files enter only through `len(frame_files)` (the clamp bound)
and `frame_files[index]` (the image handed to the external model), so
frames are modelled by their count and the external describer by a
function of the frame index. -/

/-- The request-collection loop: resolve each timestamp to a frame
index, skip it when the index equals `last_index`, otherwise record the
request `(timestamp, index)` and update `last_index` (initially
`None`). -/
def collect_requests (fps : ℚ) (frame_count : ℤ) (last_index : Option ℤ) :
    List ℚ → List (ℚ × ℤ)
  | [] => []
  | timestamp :: rest =>
      let index := frame_index_for_timestamp fps timestamp frame_count
      if some index = last_index then collect_requests fps frame_count last_index rest
      else (timestamp, index) :: collect_requests fps frame_count (some index) rest

/-- `_describe_frames_at_times`: empty when there are no frames or no
timestamps; otherwise the collapsed requests are dispatched through the
bounded parallel map (order-preserving, see
`parallel_map_eq_sequential`) and each result is
`{"t": round(t, 3), **payload}`. -/
def describe_frames_at_times {β : Type} (fps : ℚ) (frame_count : ℤ)
    (describe_frame : ℤ → β) (timestamps : List ℚ) : List (ℚ × β) :=
  if frame_count ≤ 0 ∨ timestamps = [] then []
  else (collect_requests fps frame_count none timestamps).map
    (fun r => (round3 r.1, describe_frame r.2))

/-! ## Justification of one chunk (`_justify_chunk`) -/

/-- A `{t, justification}` entry of the justification timeline. -/
structure JustificationEntry where
  t : ℚ
  justification : String
deriving Repr, DecidableEq

/-- A parsed response item from the justification model: `t` is `none`
when the item is not a dict or its `t` does not parse as a float
(`except (TypeError, ValueError): continue`), and `justification` is
the stringified text. -/
structure ResponseItem where
  t : Option ℚ
  justification : String
deriving Repr, DecidableEq

/-- One `for item in items` iteration building `justification_map`:
skip non-dict/unparseable items (`t = none`), skip items whose rounded
`t` is outside `allowed`, otherwise record (overwriting any earlier
entry for the same timestamp). -/
def justify_fold (allowed : List ℚ) (m : ℚ → String) (item : ResponseItem) :
    ℚ → String :=
  match item.t with
  | none => m
  | some tv =>
      if round3 tv ∈ allowed then
        (fun t => if t = round3 tv then item.justification else m t)
      else m

/-- `_justify_chunk`, with `seconds` the `t` values of the chunk's
per-second description records (each such record carries a `"t"` key by
construction) and `items` the parsed response list.  `allowed` is the
rounded `t` set; response items with missing `t` or `t` outside
`allowed` are dropped; later items overwrite earlier ones in
`justification_map`; the returned timeline iterates the chunk's seconds
in order, with `justification_map.get(t_value, "")`.  The scene/audio
context and the chunk bounds only feed the external prompt. -/
def justify_chunk (seconds : List ℚ) (items : List ResponseItem) :
    List JustificationEntry :=
  if seconds = [] then []
  else
    let justification_map : ℚ → String :=
      items.foldl (justify_fold (seconds.map round3)) (fun _ => "")
    seconds.map (fun s =>
      { t := round3 s, justification := justification_map (round3 s) })

/-! ## Window aggregator / background narrator (`analyze_video`)

The external summarizer `_summarize_background` is a parameter; the
`call_ticks` field instruments the aggregator state with the tick
indices at which the summarizer was invoked (the Python loop has no
such list; it records where `_summarize_background` is called). -/

/-- An audio transcript segment `{start, end, text}` (the source field
`end` is a Lean keyword and is named `stop` here). -/
structure AudioSegment where
  start : ℚ
  stop : ℚ
  text : String
deriving Repr, DecidableEq

/-- The running summarizer state `{"summary": ..., "entities": ...}`. -/
structure SummarizerState where
  summary : String
  entities : List String
deriving Repr, DecidableEq

/-- A `{t, narration}` background update. -/
structure BackgroundUpdate where
  t : ℚ
  narration : String
deriving Repr, DecidableEq

/-- The aggregator's mutable state across ticks. -/
structure AggregatorState where
  background_updates : List BackgroundUpdate
  state : SummarizerState
  last_caption_marker : ℤ
  last_audio_marker : ℤ
  call_ticks : List ℕ

/-- The trailing-window contents at tick time `t`:
`window_captions = [c for c in captions if window_start <= c["t"] <= t]`
and `window_audio = [s for s in audio_segments if s["end"] >=
window_start and s["start"] <= t]` with
`window_start = max(0.0, t - BG_WINDOW_SEC)`. -/
def tick_windows (captions : List Caption) (audio_segments : List AudioSegment)
    (window_sec t : ℚ) : List Caption × List AudioSegment :=
  let window_start := max 0 (t - window_sec)
  (captions.filter (fun c => decide (window_start ≤ c.t) && decide (c.t ≤ t)),
   audio_segments.filter (fun s => decide (window_start ≤ s.stop) && decide (s.start ≤ t)))

/-- The marker pair at tick time `t`:
`newest_caption_id = window_captions[-1]["id"] if window_captions else -1`
and `newest_audio_idx = audio_segments.index(window_audio[-1]) if
window_audio else -1`. -/
def tick_pair (captions : List Caption) (audio_segments : List AudioSegment)
    (window_sec t : ℚ) : ℤ × ℤ :=
  let w := tick_windows captions audio_segments window_sec t
  (((w.1.getLast?).map (fun c => (c.id : ℤ))).getD (-1),
   ((w.2.getLast?).map (fun s => (audio_segments.indexOf s : ℤ))).getD (-1))

/-- One `while t <= duration` iteration at tick index `k`
(`t = k * BG_UPDATE_SEC`): when the marker pair changed, call the
summarizer, append the update if the narration is non-empty, and move
both markers; otherwise skip the call entirely. -/
def bg_step
    (summarize : List Caption → List AudioSegment → SummarizerState →
      String × SummarizerState)
    (captions : List Caption) (audio_segments : List AudioSegment)
    (window_sec update_sec : ℚ) (st : AggregatorState) (k : ℕ) : AggregatorState :=
  let t := (k : ℚ) * update_sec
  let w := tick_windows captions audio_segments window_sec t
  let markers := tick_pair captions audio_segments window_sec t
  if markers.1 ≠ st.last_caption_marker ∨ markers.2 ≠ st.last_audio_marker then
    let res := summarize w.1 w.2 st.state
    { background_updates := st.background_updates ++
        (if res.1 ≠ "" then [{ t := round3 t, narration := res.1 }] else [])
      state := res.2
      last_caption_marker := markers.1
      last_audio_marker := markers.2
      call_ticks := st.call_ticks ++ [k] }
  else st

/-- Initial aggregator state: empty updates, summary `""`, the
known-entities snapshot, both markers `-1`. -/
def bg_init (entities : List String) : AggregatorState :=
  { background_updates := [], state := { summary := "", entities := entities },
    last_caption_marker := -1, last_audio_marker := -1, call_ticks := [] }

/-- The number of iterations of `t = 0.0; while t <= duration: ...;
t += step` for a positive `step`: ticks `k*step` for
`0 ≤ k ≤ ⌊duration/step⌋` (none for a negative duration). -/
def num_ticks (duration step : ℚ) : ℕ :=
  if duration < 0 then 0 else (⌊duration / step⌋).toNat + 1

/-- The background-update loop of `analyze_video`: skipped entirely
when both `captions` and `audio_segments` are empty. -/
def background_aggregate
    (summarize : List Caption → List AudioSegment → SummarizerState →
      String × SummarizerState)
    (captions : List Caption) (audio_segments : List AudioSegment)
    (entities : List String) (window_sec update_sec duration : ℚ) : AggregatorState :=
  if captions = [] ∧ audio_segments = [] then bg_init entities
  else
    (List.range (num_ticks duration update_sec)).foldl
      (bg_step summarize captions audio_segments window_sec update_sec)
      (bg_init entities)

/-- The pair the aggregator compares against at tick `k`: `(-1, -1)`
before the first tick, the previous tick's pair afterwards. -/
def prev_tick_pair (captions : List Caption) (audio_segments : List AudioSegment)
    (window_sec update_sec : ℚ) (k : ℕ) : ℤ × ℤ :=
  if k = 0 then (-1, -1)
  else tick_pair captions audio_segments window_sec (((k - 1 : ℕ) : ℚ) * update_sec)

/-! ## Justification timeline (`_build_justification_timeline`)

`per_second_descriptions` enters through the `t` value of each record
(`chunk_start <= s["t"] <= chunk_end` and `_justify_chunk`'s use of the
`t` values); the per-chunk scene/audio context only feeds the external
prompt, and the external model's response for chunk `k` is
`responses k`. -/

/-- `_build_justification_timeline`: `chunk = max(1.0,
JUSTIFY_CHUNK_SEC)`; `t = 0.0; while t <= duration:` gather the seconds
with `chunk_start <= t <= chunk_end` where `chunk_end = min(duration,
t + chunk)`, justify the chunk, and extend the timeline. -/
def build_justification_timeline (responses : ℕ → List ResponseItem)
    (per_second_descriptions : List ℚ) (chunk_sec duration : ℚ) :
    List JustificationEntry :=
  if per_second_descriptions = [] then []
  else
    let chunk := max 1 chunk_sec
    (List.range (num_ticks duration chunk)).flatMap (fun k =>
      let chunk_start := (k : ℚ) * chunk
      let chunk_end := min duration ((k : ℚ) * chunk + chunk)
      justify_chunk
        (per_second_descriptions.filter
          (fun s => decide (chunk_start ≤ s) && decide (s ≤ chunk_end)))
        (responses k))

/-! ## Theorems -/

/-- `round3` is monotone. -/
theorem round3_mono {x y : ℚ} (h : x ≤ y) : round3 x ≤ round3 y := by
  unfold round3
  have : round (x * 1000) ≤ round (y * 1000) := by
    rw [round_eq, round_eq]
    exact Int.floor_mono (by linarith)
  exact div_le_div_of_nonneg_right (by exact_mod_cast this) (by norm_num)

theorem round3_zero : round3 0 = 0 := by
  unfold round3; norm_num

/-- C10: the timestamp→frame-index mapping returns 0 when
`frame_count ≤ 0`, returns an index in `[0, frame_count - 1]` when
`frame_count > 0` (for every timestamp, negative or past-duration
included), and therefore every frame-list access derived from it on a
non-empty frame list is within bounds. -/
theorem frame_index_for_timestamp_in_bounds (fps t : ℚ) (n : ℤ) :
    (n ≤ 0 → frame_index_for_timestamp fps t n = 0) ∧
    (0 < n → 0 ≤ frame_index_for_timestamp fps t n ∧
      frame_index_for_timestamp fps t n < n) ∧
    (∀ {α : Type} (l : List α), l ≠ [] →
      (frame_index_for_timestamp fps t (l.length : ℤ)).toNat < l.length) := by
  refine ⟨fun h => ?_, fun h => ?_, fun l hl => ?_⟩
  · simp [frame_index_for_timestamp, h]
  · unfold frame_index_for_timestamp
    rw [if_neg (by omega)]
    constructor
    · exact le_max_left _ _
    · have h1 : min (n - 1) (round (t * fps)) ≤ n - 1 := min_le_left _ _
      have h2 : max 0 (min (n - 1) (round (t * fps))) ≤ n - 1 := by omega
      omega
  · have hn : 0 < (l.length : ℤ) := by
      have : 0 < l.length := List.length_pos.mpr hl
      exact_mod_cast this
    unfold frame_index_for_timestamp
    rw [if_neg (by omega)]
    have h1 : min ((l.length : ℤ) - 1) (round (t * fps)) ≤ (l.length : ℤ) - 1 :=
      min_le_left _ _
    have h2 : max 0 (min ((l.length : ℤ) - 1) (round (t * fps))) ≤ (l.length : ℤ) - 1 := by
      omega
    omega

/-- Witness for C10 at concrete inputs. -/
theorem frame_index_for_timestamp_in_bounds_witness :
    0 ≤ frame_index_for_timestamp 2 (-5) 10 ∧ frame_index_for_timestamp 2 (-5) 10 < 10 :=
  (frame_index_for_timestamp_in_bounds 2 (-5) 10).2.1 (by norm_num)

theorem dedupKeepFirst_sublist (l : List ℚ) : ∀ seen, List.Sublist (dedupKeepFirst seen l) l := by
  induction l with
  | nil => intro seen; simp [dedupKeepFirst]
  | cons v rest ih =>
      intro seen
      unfold dedupKeepFirst
      by_cases hv : v ∈ seen
      · simp only [if_pos hv]
        exact (ih seen).trans (List.sublist_cons_self v rest)
      · simp only [if_neg hv]
        exact (ih (v :: seen)).cons₂ v

theorem dedupKeepFirst_mem (l : List ℚ) :
    ∀ seen x, x ∈ dedupKeepFirst seen l ↔ x ∈ l ∧ x ∉ seen := by
  induction l with
  | nil => intro seen x; simp [dedupKeepFirst]
  | cons v rest ih =>
      intro seen x
      unfold dedupKeepFirst
      by_cases hv : v ∈ seen
      · simp only [if_pos hv, ih, List.mem_cons]
        constructor
        · rintro ⟨hx, hs⟩; exact ⟨Or.inr hx, hs⟩
        · rintro ⟨hx | hx, hs⟩
          · exact absurd (hx ▸ hv) hs
          · exact ⟨hx, hs⟩
      · simp only [if_neg hv, List.mem_cons, ih, not_or]
        constructor
        · rintro (rfl | ⟨hx, hxv, hxs⟩)
          · exact ⟨Or.inl rfl, hv⟩
          · exact ⟨Or.inr hx, hxs⟩
        · rintro ⟨rfl | hx, hs⟩
          · exact Or.inl rfl
          · by_cases hxv : x = v
            · exact Or.inl hxv
            · exact Or.inr ⟨hx, hxv, hs⟩

theorem dedupKeepFirst_nodup (l : List ℚ) : ∀ seen, (dedupKeepFirst seen l).Nodup := by
  induction l with
  | nil => intro seen; simp [dedupKeepFirst]
  | cons v rest ih =>
      intro seen
      unfold dedupKeepFirst
      by_cases hv : v ∈ seen
      · simpa [hv] using ih seen
      · simp only [if_neg hv, List.nodup_cons]
        refine ⟨fun h => ?_, ih (v :: seen)⟩
        exact ((dedupKeepFirst_mem rest (v :: seen) v).mp h).2 (List.mem_cons_self v seen)

/-- C6 counterexample: an out-of-order diagnostic stream (extracted
`pts_time` values `[2, 1]`) is returned as `[2, 1]`, which is not
sorted ascending — the detector preserves stream order, it does not
sort. -/
theorem detect_scene_cuts_counterexample :
    detect_scene_cuts [2, 1] = [2, 1] ∧ ¬ (detect_scene_cuts [2, 1]).Sorted (· ≤ ·) := by
  have h21 : detect_scene_cuts [2, 1] = [2, 1] := by
    rw [detect_scene_cuts, if_neg (by simp)]
    norm_num [dedupKeepFirst, round3]
  refine ⟨h21, fun h => ?_⟩
  rw [h21] at h
  have := List.rel_of_sorted_cons h 1 (List.mem_singleton.mpr rfl)
  norm_num at this

/-- C6 (amended): the detector returns the extracted timestamps rounded
to 3 decimals and deduplicated keeping first occurrences, preserving
stream order (the result is a sublist of the rounded stream, without
duplicates, containing exactly the rounded values); whenever the
extracted timestamps appear in non-decreasing stream order the result
is sorted strictly ascending.  In particular `pts_time:1.501234` and
`pts_time:1.501235` yield `scene_cuts = [1.501]` (see the witness). -/
theorem detect_scene_cuts_spec (timestamps : List ℚ)
    (hsorted : timestamps.Sorted (· ≤ ·)) :
    (detect_scene_cuts timestamps).Nodup ∧
    List.Sublist (detect_scene_cuts timestamps) (timestamps.map round3) ∧
    (∀ x, x ∈ detect_scene_cuts timestamps ↔ x ∈ timestamps.map round3) ∧
    (detect_scene_cuts timestamps).Sorted (· < ·) := by
  have hnodup : (detect_scene_cuts timestamps).Nodup := by
    unfold detect_scene_cuts
    split
    · simp
    · exact dedupKeepFirst_nodup _ []
  have hsub : List.Sublist (detect_scene_cuts timestamps) (timestamps.map round3) := by
    unfold detect_scene_cuts
    split
    · simp
    · exact dedupKeepFirst_sublist _ []
  have hmapsorted : (timestamps.map round3).Sorted (· ≤ ·) := by
    rw [List.Sorted, List.pairwise_map]
    exact hsorted.imp (fun h => round3_mono h)
  have hle : (detect_scene_cuts timestamps).Sorted (· ≤ ·) := hmapsorted.sublist hsub
  refine ⟨hnodup, hsub, fun x => ?_, hle.lt_of_le hnodup⟩
  unfold detect_scene_cuts
  split
  · simp_all
  · rw [dedupKeepFirst_mem]
    simp

/-- Witness for C6 (amended) at the spec's own scenario. -/
theorem detect_scene_cuts_spec_witness :
    (detect_scene_cuts [1501234/1000000, 1501235/1000000]).Nodup ∧
    List.Sublist (detect_scene_cuts [1501234/1000000, 1501235/1000000])
      ([1501234/1000000, 1501235/1000000].map round3) ∧
    (∀ x, x ∈ detect_scene_cuts [1501234/1000000, 1501235/1000000] ↔
      x ∈ ([1501234/1000000, 1501235/1000000].map round3)) ∧
    (detect_scene_cuts [1501234/1000000, 1501235/1000000]).Sorted (· < ·) :=
  detect_scene_cuts_spec [1501234/1000000, 1501235/1000000]
    (by norm_num [List.Sorted])

/-- The spec scenario itself: the two near-identical `pts_time` values
collapse to the single rounded cut `1.501`. -/
theorem detect_scene_cuts_scenario :
    detect_scene_cuts [1501234/1000000, 1501235/1000000] = [1501/1000] := by
  rw [detect_scene_cuts, if_neg (by simp)]
  norm_num [dedupKeepFirst, round3, round_eq]

theorem parallel_map_foldl_length {α β : Type} (items : List α) (func : α → β) :
    ∀ (order : List ℕ) (acc : List (Option β)),
      (order.foldl (fun results idx => results.set idx (items[idx]?.map func)) acc).length
        = acc.length := by
  intro order
  induction order with
  | nil => intro acc; rfl
  | cons i rest ih =>
      intro acc
      rw [List.foldl_cons, ih, List.length_set]

theorem parallel_map_foldl_getElem {α β : Type} (items : List α) (func : α → β) :
    ∀ (order : List ℕ) (acc : List (Option β)), acc.length = items.length →
      ∀ j, j < items.length →
        (order.foldl (fun results idx => results.set idx (items[idx]?.map func)) acc)[j]?
          = if j ∈ order then some (items[j]?.map func) else acc[j]? := by
  intro order
  induction order with
  | nil => intro acc _ j _; simp
  | cons i rest ih =>
      intro acc hlen j hj
      rw [List.foldl_cons]
      rw [ih (acc.set i (items[i]?.map func)) (by rw [List.length_set]; exact hlen) j hj]
      by_cases hjr : j ∈ rest
      · simp [hjr]
      · by_cases hji : j = i
        · subst hji
          rw [if_neg hjr, if_pos (List.mem_cons_self j rest)]
          exact List.getElem?_set_self (by omega)
        · rw [if_neg hjr, List.getElem?_set_ne (fun h => hji h.symm)]
          have : ¬ j ∈ i :: rest := by
            simp [List.mem_cons, hji, hjr]
          rw [if_neg this]

/-- C2: for every item list, request function and concurrency cap, and
for every completion order of the futures (any permutation of the
submission indices), the bounded parallel map returns a list of length
`N` whose `i`-th slot holds `func (items[i])` — identical to the
sequential comprehension `[func(item) for item in items]` — and when
`max_workers ≤ 1` or `N ≤ 1` it takes the sequential branch with the
identical output shape. -/
theorem parallel_map_eq_sequential {α β : Type} (items : List α) (func : α → β)
    (max_workers : ℤ) (order : List ℕ)
    (horder : order.Perm (List.range items.length)) :
    parallel_map items func max_workers order = items.map (fun item => some (func item)) ∧
    (parallel_map items func max_workers order).length = items.length ∧
    (∀ j, j < items.length →
      (parallel_map items func max_workers order)[j]? = some (items[j]?.map func)) ∧
    (max_workers ≤ 1 ∨ items.length ≤ 1 →
      parallel_map items func max_workers order = items.map (fun item => some (func item))) := by
  have hmain : parallel_map items func max_workers order
      = items.map (fun item => some (func item)) := by
    unfold parallel_map
    split
    · rfl
    · apply List.ext_getElem?
      intro j
      by_cases hj : j < items.length
      · rw [parallel_map_foldl_getElem items func order
          (List.replicate items.length (none : Option β)) (List.length_replicate _ _) j hj]
        have hmem : j ∈ order := horder.mem_iff.mpr (List.mem_range.mpr hj)
        rw [if_pos hmem, List.getElem?_map]
        rcases List.getElem?_eq_some_iff.mpr ⟨hj, rfl⟩ with h
        rw [h]
        rfl
      · have h1 : (order.foldl
            (fun results idx => results.set idx (items[idx]?.map func))
            (List.replicate items.length (none : Option β)))[j]? = none := by
          apply List.getElem?_eq_none
          rw [parallel_map_foldl_length, List.length_replicate]
          omega
        have h2 : (items.map (fun item => some (func item)))[j]? = none := by
          apply List.getElem?_eq_none
          rw [List.length_map]
          omega
        rw [h1, h2]
  refine ⟨hmain, ?_, ?_, fun _ => hmain⟩
  · rw [hmain, List.length_map]
  · intro j hj
    rw [hmain, List.getElem?_map]
    rcases List.getElem?_eq_some_iff.mpr ⟨hj, rfl⟩ with h
    rw [h]
    rfl

/-- Witness for C2: three items completing out of order (future 2
first, then 0, then 1) still produce the sequential result. -/
theorem parallel_map_eq_sequential_witness :
    parallel_map [10, 20, 30] (fun n => n + 1) 4 [2, 0, 1] =
      [10, 20, 30].map (fun item => some (item + 1)) :=
  (parallel_map_eq_sequential [10, 20, 30] (fun n => n + 1) 4 [2, 0, 1] (by decide)).1

theorem keyframe_scan_eq_upto (p : KeyframeParams)
    (cf : ℕ → List String → CaptionPayload) (sigs : List (List ℚ)) :
    keyframe_scan p cf sigs = keyframe_scan_upto p cf sigs sigs.length := by
  unfold keyframe_scan keyframe_scan_upto
  rw [← List.enum_length (l := sigs), List.take_length]

theorem keyframe_scan_upto_succ (p : KeyframeParams)
    (cf : ℕ → List String → CaptionPayload) (sigs : List (List ℚ))
    (k : ℕ) (hk : k < sigs.length) :
    keyframe_scan_upto p cf sigs (k + 1) =
      keyframe_step p cf (keyframe_scan_upto p cf sigs k) k (sigs.get ⟨k, hk⟩) := by
  unfold keyframe_scan_upto
  have hk' : k < sigs.enum.length := by rw [List.enum_length]; exact hk
  have henum : sigs.enum.get ⟨k, hk'⟩ = (k, sigs.get ⟨k, hk⟩) := by
    simp [List.get_eq_getElem, List.getElem_enum]
  have htake : (sigs.enum).take (k + 1) = (sigs.enum).take k ++ [(k, sigs.get ⟨k, hk⟩)] := by
    rw [← henum, ← List.concat_eq_append, List.get_eq_getElem, List.take_concat_get]
  rw [htake, List.foldl_append, List.foldl_cons, List.foldl_nil]

theorem keyframe_step_selected (p : KeyframeParams)
    (cf : ℕ → List String → CaptionPayload) (st : KeyframeState)
    (index : ℕ) (signature : List ℚ) :
    (keyframe_step p cf st index signature).selected =
      st.selected ++ [needs_update p st.prev_signature st.last_caption_time
        ((index : ℚ) / p.fps) signature] := by
  simp only [keyframe_step]
  split <;> rfl

theorem keyframe_step_prev_signature (p : KeyframeParams)
    (cf : ℕ → List String → CaptionPayload) (st : KeyframeState)
    (index : ℕ) (signature : List ℚ) :
    (keyframe_step p cf st index signature).prev_signature = some signature := by
  simp only [keyframe_step]
  split <;> rfl

theorem keyframe_upto_selected_length (p : KeyframeParams)
    (cf : ℕ → List String → CaptionPayload) (sigs : List (List ℚ)) :
    ∀ k, k ≤ sigs.length → (keyframe_scan_upto p cf sigs k).selected.length = k := by
  intro k
  induction k with
  | zero => intro _; rfl
  | succ k ih =>
      intro hk
      rw [keyframe_scan_upto_succ p cf sigs k (by omega), keyframe_step_selected,
        List.length_append, ih (by omega)]
      rfl

theorem keyframe_upto_prev_signature (p : KeyframeParams)
    (cf : ℕ → List String → CaptionPayload) (sigs : List (List ℚ))
    (k : ℕ) (hk : k < sigs.length) :
    (keyframe_scan_upto p cf sigs (k + 1)).prev_signature = some (sigs.get ⟨k, hk⟩) := by
  rw [keyframe_scan_upto_succ p cf sigs k hk, keyframe_step_prev_signature]

theorem keyframe_upto_selected_stable (p : KeyframeParams)
    (cf : ℕ → List String → CaptionPayload) (sigs : List (List ℚ)) :
    ∀ m k j, j < k → k ≤ m → m ≤ sigs.length →
      (keyframe_scan_upto p cf sigs m).selected[j]? =
        (keyframe_scan_upto p cf sigs k).selected[j]? := by
  intro m
  induction m with
  | zero => intro k j h1 h2 _; omega
  | succ m ih =>
      intro k j h1 h2 h3
      rcases Nat.eq_or_lt_of_le h2 with heq | hlt
      · rw [heq]
      · rw [keyframe_scan_upto_succ p cf sigs m (by omega), keyframe_step_selected,
          List.getElem?_append_left]
        · exact ih k j h1 (by omega) (by omega)
        · rw [keyframe_upto_selected_length p cf sigs m (by omega)]
          omega

/-- The flag recorded for frame `j` by the full scan is the
`needs_update` decision taken against the state after the first `j`
frames. -/
theorem keyframe_scan_selected_getElem (p : KeyframeParams)
    (cf : ℕ → List String → CaptionPayload) (sigs : List (List ℚ))
    (j : ℕ) (hj : j < sigs.length) :
    (keyframe_scan p cf sigs).selected[j]? =
      some (needs_update p (keyframe_scan_upto p cf sigs j).prev_signature
        (keyframe_scan_upto p cf sigs j).last_caption_time
        ((j : ℚ) / p.fps) (sigs.get ⟨j, hj⟩)) := by
  rw [keyframe_scan_eq_upto,
    keyframe_upto_selected_stable p cf sigs sigs.length (j + 1) j (by omega) (by omega)
      (by omega),
    keyframe_scan_upto_succ p cf sigs j hj, keyframe_step_selected,
    List.getElem?_append_right]
  · rw [keyframe_upto_selected_length p cf sigs j (by omega)]
    simp
  · rw [keyframe_upto_selected_length p cf sigs j (by omega)]

/-- C3: in the keyframe scan, the first frame is always selected, and
every subsequent frame `j+1` (at timestamp `(j+1)/fps`) is selected iff
`(diff ≥ diff_threshold ∧ t − last_caption_time ≥ min_gap) ∨
(t − last_caption_time ≥ max_gap)`, where `diff` is the mean absolute
difference between the frame's signature and the immediately preceding
frame's signature, and `last_caption_time` is the scan state after the
first `j+1` frames. -/
theorem keyframe_selection_rule (p : KeyframeParams)
    (cf : ℕ → List String → CaptionPayload) (sigs : List (List ℚ)) :
    (0 < sigs.length → (keyframe_scan p cf sigs).selected[0]? = some true) ∧
    (∀ j (hj : j + 1 < sigs.length),
      ((keyframe_scan p cf sigs).selected[j + 1]? = some true ↔
        ((diff_score (sigs.get ⟨j + 1, hj⟩) (sigs.get ⟨j, by omega⟩) ≥ p.diff_threshold ∧
          ((j : ℚ) + 1) / p.fps -
            (keyframe_scan_upto p cf sigs (j + 1)).last_caption_time ≥ p.min_gap) ∨
          ((j : ℚ) + 1) / p.fps -
            (keyframe_scan_upto p cf sigs (j + 1)).last_caption_time ≥ p.max_gap))) := by
  constructor
  · intro h0
    rw [keyframe_scan_selected_getElem p cf sigs 0 h0]
    rfl
  · intro j hj
    rw [keyframe_scan_selected_getElem p cf sigs (j + 1) hj,
      keyframe_upto_prev_signature p cf sigs j (by omega)]
    unfold needs_update
    rw [Option.some_inj]
    push_cast
    rw [Bool.or_eq_true, Bool.and_eq_true]
    simp only [decide_eq_true_eq]

/-- Witness for C3 at the default parameters (`fps=2`,
`diff_threshold=0.12`, `min_gap=0.5`, `max_gap=6`) on a two-frame
sequence whose second frame differs: the second frame is selected. -/
theorem keyframe_selection_rule_witness :
    (keyframe_scan ⟨2, 12/100, 1/2, 6⟩ (fun _ _ => ⟨"", [], [], [], "", 0⟩)
      [[0], [1]]).selected[1]? = some true := by
  refine ((keyframe_selection_rule ⟨2, 12/100, 1/2, 6⟩
    (fun _ _ => ⟨"", [], [], [], "", 0⟩) [[0], [1]]).2 0 (by norm_num)).mpr ?_
  left
  have hlct : (keyframe_scan_upto ⟨2, 12/100, 1/2, 6⟩
      (fun _ _ => ⟨"", [], [], [], "", 0⟩) [[0], [1]] 1).last_caption_time = 0 := by
    rw [keyframe_scan_upto_succ _ _ _ 0 (by norm_num)]
    show ((0 : ℕ) : ℚ) / 2 = 0
    norm_num
  rw [hlct]
  constructor
  · show diff_score [1] [0] ≥ 12/100
    norm_num [diff_score]
  · norm_num

theorem keyframe_step_invariant (p : KeyframeParams)
    (cf : ℕ → List String → CaptionPayload) (st : KeyframeState)
    (index : ℕ) (signature : List ℚ) (bound : ℚ)
    (hinv : EventsInvariant st bound) (hbt : bound ≤ (index : ℚ) / p.fps) :
    EventsInvariant (keyframe_step p cf st index signature) ((index : ℚ) / p.fps) := by
  obtain ⟨⟨cid, hcid⟩, hseg0, hsegb, hchain, hhead, hlast, hempty, hle⟩ := hinv
  have hsegt : st.segment_start ≤ (index : ℚ) / p.fps := le_trans hsegb hbt
  simp only [keyframe_step]
  split
  · -- selected: the caption is appended and the previous event closed
    have hclose : close_event st ((index : ℚ) / p.fps) =
        [{ t_start := round3 st.segment_start,
           t_end := round3 ((index : ℚ) / p.fps), caption_id := cid }] := by
      unfold close_event
      rw [hcid]
    refine ⟨⟨st.captions.length, rfl⟩, le_trans hseg0 hsegt, le_refl _, ?_, ?_, ?_, ?_, ?_⟩
    · show List.Chain' _ (st.events ++ _)
      rw [hclose]
      refine List.chain'_append.mpr ⟨hchain, List.chain'_singleton _, ?_⟩
      intro x hx y hy
      simp only [List.head?_cons, Option.mem_def, Option.some_inj] at hy
      subst hy
      exact hlast x (Option.mem_def.mp hx)
    · show ∀ e, (st.events ++ _).head? = some e → e.t_start = 0
      rw [hclose]
      intro e he
      cases hevents : st.events with
      | nil =>
          rw [hevents] at he
          simp only [List.nil_append, List.head?_cons, Option.some_inj] at he
          rw [← he]
          show round3 st.segment_start = 0
          rw [hempty hevents, round3_zero]
      | cons a l =>
          rw [hevents] at he
          simp only [List.cons_append, List.head?_cons, Option.some_inj] at he
          rw [← he]
          exact hhead a (by rw [hevents]; rfl)
    · show ∀ e, (st.events ++ _).getLast? = some e → _
      rw [hclose]
      intro e he
      rw [List.getLast?_concat] at he
      rw [Option.some_inj] at he
      rw [← he]
    · intro h
      rw [hclose] at h
      exact absurd h (by simp)
    · show ∀ e ∈ st.events ++ _, e.t_start ≤ e.t_end
      rw [hclose]
      intro e he
      rcases List.mem_append.mp he with h | h
      · exact hle e h
      · rw [List.mem_singleton] at h
        rw [h]
        exact round3_mono hsegt
  · exact ⟨⟨cid, hcid⟩, hseg0, le_trans hsegb hbt, hchain, hhead, hlast, hempty, hle⟩

theorem keyframe_scan_upto_zero (p : KeyframeParams)
    (cf : ℕ → List String → CaptionPayload) (sigs : List (List ℚ)) :
    keyframe_scan_upto p cf sigs 0 = keyframe_init := rfl

theorem keyframe_upto_invariant (p : KeyframeParams)
    (cf : ℕ → List String → CaptionPayload) (sigs : List (List ℚ))
    (hfps : 0 < p.fps) :
    ∀ k, 1 ≤ k → k ≤ sigs.length →
      EventsInvariant (keyframe_scan_upto p cf sigs k) (((k : ℚ) - 1) / p.fps) := by
  intro k
  induction k with
  | zero => intro h _; omega
  | succ k ih =>
      intro _ hk
      rcases Nat.eq_zero_or_pos k with rfl | hk1
      · -- base case: the first frame is always selected
        have h0 : 0 < sigs.length := by omega
        have h1 : keyframe_scan_upto p cf sigs 1 =
            keyframe_step p cf keyframe_init 0 (sigs.get ⟨0, h0⟩) := by
          rw [keyframe_scan_upto_succ p cf sigs 0 h0, keyframe_scan_upto_zero]
        have hid : (keyframe_scan_upto p cf sigs 1).last_caption_id = some 0 := by
          rw [h1]; rfl
        have hev : (keyframe_scan_upto p cf sigs 1).events = [] := by
          rw [h1]; rfl
        have hseg : (keyframe_scan_upto p cf sigs 1).segment_start = 0 := by
          rw [h1]
          show ((0 : ℕ) : ℚ) / p.fps = 0
          norm_num
        refine ⟨⟨0, hid⟩, ?_, ?_, ?_, ?_, ?_, ?_, ?_⟩
        · rw [hseg]
        · rw [hseg]; norm_num
        · rw [hev]; exact List.chain'_nil
        · intro e he; rw [hev] at he; cases he
        · intro e he; rw [hev] at he; cases he
        · intro _; exact hseg
        · intro e he; rw [hev] at he; cases he
      · have hlt : k < sigs.length := by omega
        have hinv := ih (by omega) (by omega)
        rw [keyframe_scan_upto_succ p cf sigs k hlt]
        have hstep := keyframe_step_invariant p cf (keyframe_scan_upto p cf sigs k) k
          (sigs.get ⟨k, hlt⟩) (((k : ℚ) - 1) / p.fps) hinv
          (div_le_div_of_nonneg_right (by norm_num) hfps.le)
        have hcast : (((k + 1 : ℕ) : ℚ) - 1) / p.fps = ((k : ℕ) : ℚ) / p.fps := by
          push_cast
          ring_nf
        rw [hcast]
        exact hstep

/-- C4: whenever the frame sequence is non-empty (so at least one
keyframe is selected), `fps > 0` and every frame timestamp is at most
`duration`, the final `events` list partitions `[0, duration]`:
non-empty, contiguous (each event's `t_end` is the next event's
`t_start`, hence sorted), the first event starts at 0, the last event
ends at (the 3-decimal rounding of) `duration`, and every event has
`t_start ≤ t_end`; and when no frame is ever selected (empty frame
sequence) both `captions` and `events` are empty. -/
theorem keyframe_events_partition (p : KeyframeParams)
    (cf : ℕ → List String → CaptionPayload) (sigs : List (List ℚ))
    (duration : ℚ) (hfps : 0 < p.fps) :
    (sigs = [] → keyframe_events p cf sigs duration = [] ∧
      (keyframe_scan p cf sigs).captions = []) ∧
    (sigs ≠ [] → ((sigs.length : ℚ) - 1) / p.fps ≤ duration →
      keyframe_events p cf sigs duration ≠ [] ∧
      List.Chain' (fun a b => a.t_end = b.t_start) (keyframe_events p cf sigs duration) ∧
      (∀ e, (keyframe_events p cf sigs duration).head? = some e → e.t_start = 0) ∧
      (∀ e, (keyframe_events p cf sigs duration).getLast? = some e →
        e.t_end = round3 duration) ∧
      (∀ e ∈ keyframe_events p cf sigs duration, e.t_start ≤ e.t_end)) := by
  constructor
  · rintro rfl
    exact ⟨rfl, rfl⟩
  · intro hne hdur
    have hn : 1 ≤ sigs.length := List.length_pos.mpr hne
    have hinv := keyframe_upto_invariant p cf sigs hfps sigs.length hn (le_refl _)
    rw [← keyframe_scan_eq_upto] at hinv
    obtain ⟨⟨cid, hcid⟩, hseg0, hsegb, hchain, hhead, hlast, hempty, hle⟩ := hinv
    have hsegd : (keyframe_scan p cf sigs).segment_start ≤ duration :=
      le_trans hsegb hdur
    have hclose : close_event (keyframe_scan p cf sigs) duration =
        [{ t_start := round3 (keyframe_scan p cf sigs).segment_start,
           t_end := round3 duration, caption_id := cid }] := by
      unfold close_event
      rw [hcid]
    simp only [keyframe_events]
    rw [hclose]
    refine ⟨by simp, ?_, ?_, ?_, ?_⟩
    · refine List.chain'_append.mpr ⟨hchain, List.chain'_singleton _, ?_⟩
      intro x hx y hy
      simp only [List.head?_cons, Option.mem_def, Option.some_inj] at hy
      subst hy
      exact hlast x (Option.mem_def.mp hx)
    · intro e he
      cases hevents : (keyframe_scan p cf sigs).events with
      | nil =>
          rw [hevents] at he
          simp only [List.nil_append, List.head?_cons, Option.some_inj] at he
          rw [← he]
          show round3 (keyframe_scan p cf sigs).segment_start = 0
          rw [hempty hevents, round3_zero]
      | cons a l =>
          rw [hevents] at he
          simp only [List.cons_append, List.head?_cons, Option.some_inj] at he
          rw [← he]
          exact hhead a (by rw [hevents]; rfl)
    · intro e he
      rw [List.getLast?_concat, Option.some_inj] at he
      rw [← he]
    · intro e he
      rcases List.mem_append.mp he with h | h
      · exact hle e h
      · rw [List.mem_singleton] at h
        rw [h]
        exact round3_mono hsegd

/-- Witness for C4: two identical frames at the default parameters with
duration `1/2` produce a partitioning events list. -/
theorem keyframe_events_partition_witness :
    keyframe_events ⟨2, 12/100, 1/2, 6⟩ (fun _ _ => ⟨"", [], [], [], "", 0⟩)
      [[0], [0]] (1/2) ≠ [] ∧
    List.Chain' (fun a b => a.t_end = b.t_start)
      (keyframe_events ⟨2, 12/100, 1/2, 6⟩ (fun _ _ => ⟨"", [], [], [], "", 0⟩)
        [[0], [0]] (1/2)) ∧
    (∀ e, (keyframe_events ⟨2, 12/100, 1/2, 6⟩ (fun _ _ => ⟨"", [], [], [], "", 0⟩)
        [[0], [0]] (1/2)).head? = some e → e.t_start = 0) ∧
    (∀ e, (keyframe_events ⟨2, 12/100, 1/2, 6⟩ (fun _ _ => ⟨"", [], [], [], "", 0⟩)
        [[0], [0]] (1/2)).getLast? = some e → e.t_end = round3 (1/2)) ∧
    (∀ e ∈ keyframe_events ⟨2, 12/100, 1/2, 6⟩ (fun _ _ => ⟨"", [], [], [], "", 0⟩)
        [[0], [0]] (1/2), e.t_start ≤ e.t_end) :=
  (keyframe_events_partition ⟨2, 12/100, 1/2, 6⟩ (fun _ _ => ⟨"", [], [], [], "", 0⟩)
    [[0], [0]] (1/2) (by norm_num)).2 (by simp) (by norm_num)

theorem sorted_cons_min {a : ℚ} {t : List ℚ} (h : (a :: t).Sorted (· ≤ ·)) :
    ∀ x ∈ a :: t, a ≤ x := by
  intro x hx
  rcases List.mem_cons.mp hx with rfl | hx
  · exact le_refl x
  · exact List.rel_of_sorted_cons h x hx

theorem sorted_le_getLast :
    ∀ (l : List ℚ), l.Sorted (· ≤ ·) → ∀ x ∈ l, ∀ (hne : l ≠ []), x ≤ l.getLast hne := by
  intro l
  induction l with
  | nil => intro _ x hx; cases hx
  | cons a t ih =>
      intro h x hx hne
      cases t with
      | nil =>
          rw [List.mem_singleton.mp hx]
          rfl
      | cons b t' =>
          rw [List.getLast_cons (List.cons_ne_nil b t')]
          rcases List.mem_cons.mp hx with rfl | hx
          · exact le_trans
              (List.rel_of_sorted_cons h _ (List.getLast_mem (List.cons_ne_nil b t')))
              (le_refl _)
          · exact ih h.of_cons x hx (List.cons_ne_nil b t')

theorem segments_of_marks_cons (a b : ℚ) (rest : List ℚ) (hab : a < b) :
    segments_of_marks (a :: b :: rest) =
      { t_start := round3 a, t_end := round3 b } :: segments_of_marks (b :: rest) := by
  show (if b ≤ a then segments_of_marks (b :: rest)
    else { t_start := round3 a, t_end := round3 b } :: segments_of_marks (b :: rest)) = _
  rw [if_neg (not_le.mpr hab)]

theorem segments_of_marks_props (rest : List ℚ) :
    ∀ a b : ℚ, List.Chain' (· < ·) (a :: b :: rest) →
      segments_of_marks (a :: b :: rest) ≠ [] ∧
      List.Chain' (fun s u => s.t_end = u.t_start) (segments_of_marks (a :: b :: rest)) ∧
      (∀ s, (segments_of_marks (a :: b :: rest)).head? = some s → s.t_start = round3 a) ∧
      (∀ s, (segments_of_marks (a :: b :: rest)).getLast? = some s →
        s.t_end = round3 ((b :: rest).getLast (List.cons_ne_nil b rest))) ∧
      (∀ s ∈ segments_of_marks (a :: b :: rest), s.t_start ≤ s.t_end) := by
  induction rest with
  | nil =>
      intro a b hchain
      have hab : a < b := (List.chain'_cons.mp hchain).1
      have hseg : segments_of_marks [a, b] = [{ t_start := round3 a, t_end := round3 b }] := by
        rw [segments_of_marks_cons a b [] hab]
        rfl
      rw [hseg]
      refine ⟨by simp, List.chain'_singleton _, ?_, ?_, ?_⟩
      · intro s hs
        rw [List.head?_cons, Option.some_inj] at hs
        rw [← hs]
      · intro s hs
        rw [List.getLast?_singleton, Option.some_inj] at hs
        rw [← hs]
        rfl
      · intro s hs
        rw [List.mem_singleton.mp hs]
        exact round3_mono hab.le
  | cons c rest ih =>
      intro a b hchain
      have hab : a < b := (List.chain'_cons.mp hchain).1
      have hchain' : List.Chain' (· < ·) (b :: c :: rest) := (List.chain'_cons.mp hchain).2
      obtain ⟨Sne, Schain, Shead, Slast, Smem⟩ := ih b c hchain'
      have hseg : segments_of_marks (a :: b :: c :: rest) =
          { t_start := round3 a, t_end := round3 b } :: segments_of_marks (b :: c :: rest) :=
        segments_of_marks_cons a b (c :: rest) hab
      obtain ⟨s0, S, hS⟩ : ∃ s0 S, segments_of_marks (b :: c :: rest) = s0 :: S := by
        cases hcase : segments_of_marks (b :: c :: rest) with
        | nil => exact absurd hcase Sne
        | cons s0 S => exact ⟨s0, S, rfl⟩
      refine ⟨by rw [hseg]; simp, ?_, ?_, ?_, ?_⟩
      · rw [hseg, hS]
        refine List.chain'_cons.mpr ⟨?_, by rw [← hS]; exact Schain⟩
        show round3 b = s0.t_start
        exact (Shead s0 (by rw [hS]; rfl)).symm
      · intro s hs
        rw [hseg, List.head?_cons, Option.some_inj] at hs
        rw [← hs]
      · intro s hs
        rw [hseg, hS, List.getLast?_cons_cons, ← hS] at hs
        have := Slast s hs
        rw [this]
        rw [List.getLast_cons (List.cons_ne_nil c rest)]
      · intro s hs
        rw [hseg] at hs
        rcases List.mem_cons.mp hs with rfl | hs
        · exact round3_mono hab.le
        · exact Smem s hs

/-- C5: for every `scene_cuts` list whose cuts lie in `[0, duration]`
and every positive duration, the scene segments partition
`[0, duration]` with no gaps: the list is non-empty, consecutive
segments share boundaries, the first starts at 0, the last ends at (the
3-decimal rounding of) `duration`, and every segment has
`t_start ≤ t_end`. -/
theorem scene_marks_shape (marks : List ℚ) (duration : ℚ) (hpos : 0 < duration)
    (hsorted : marks.Sorted (· ≤ ·))
    (h0 : (0 : ℚ) ∈ marks) (hd : duration ∈ marks)
    (hnonneg : ∀ x ∈ marks, 0 ≤ x) (hbounded : ∀ x ∈ marks, x ≤ duration) :
    ∃ b rest, marks = 0 :: b :: rest ∧
      (b :: rest).getLast (List.cons_ne_nil b rest) = duration := by
  cases marks with
  | nil => cases h0
  | cons a t =>
      cases t with
      | nil =>
          have ha : a = 0 := (List.mem_singleton.mp h0).symm
          have hda : duration = a := List.mem_singleton.mp hd
          rw [ha] at hda
          rw [hda] at hpos
          exact absurd hpos (lt_irrefl 0)
      | cons b rest =>
          have ha : a = 0 := by
            have hmin : a ≤ 0 := sorted_cons_min hsorted 0 h0
            have : 0 ≤ a := hnonneg a (List.mem_cons_self a _)
            linarith
          refine ⟨b, rest, by rw [← ha], ?_⟩
          have hne : (a :: b :: rest) ≠ [] := List.cons_ne_nil a _
          have h1 : duration ≤ (a :: b :: rest).getLast hne :=
            sorted_le_getLast _ hsorted duration hd hne
          have h2 : (a :: b :: rest).getLast hne ≤ duration :=
            hbounded _ (List.getLast_mem hne)
          have h3 : (a :: b :: rest).getLast hne =
              (b :: rest).getLast (List.cons_ne_nil b rest) :=
            List.getLast_cons (List.cons_ne_nil b rest)
          rw [← h3]
          linarith

/-- C5: for every `scene_cuts` list whose cuts lie in `[0, duration]`
and every positive duration, the scene segments partition
`[0, duration]` with no gaps: the list is non-empty, consecutive
segments share boundaries, the first starts at 0, the last ends at (the
3-decimal rounding of) `duration`, and every segment has
`t_start ≤ t_end`. -/
theorem scene_segments_partition (scene_cuts : List ℚ) (duration : ℚ)
    (hpos : 0 < duration) (hcut : ∀ c ∈ scene_cuts, 0 ≤ c ∧ c ≤ duration) :
    scene_segments_of scene_cuts duration ≠ [] ∧
    List.Chain' (fun s u => s.t_end = u.t_start) (scene_segments_of scene_cuts duration) ∧
    (∀ s, (scene_segments_of scene_cuts duration).head? = some s → s.t_start = 0) ∧
    (∀ s, (scene_segments_of scene_cuts duration).getLast? = some s →
      s.t_end = round3 duration) ∧
    (∀ s ∈ scene_segments_of scene_cuts duration, s.t_start ≤ s.t_end) := by
  have hperm : (scene_marks scene_cuts duration).Perm ((0 :: scene_cuts ++ [duration]).dedup) :=
    List.perm_insertionSort _ _
  have hsorted : (scene_marks scene_cuts duration).Sorted (· ≤ ·) :=
    List.sorted_insertionSort _ _
  have hnodup : (scene_marks scene_cuts duration).Nodup :=
    hperm.nodup_iff.mpr (List.nodup_dedup _)
  have hmem : ∀ x, x ∈ scene_marks scene_cuts duration ↔
      (x = 0 ∨ x ∈ scene_cuts ∨ x = duration) := by
    intro x
    rw [hperm.mem_iff, List.mem_dedup]
    simp [List.mem_cons, List.mem_append]
  have h0 : (0 : ℚ) ∈ scene_marks scene_cuts duration := (hmem 0).mpr (Or.inl rfl)
  have hd : duration ∈ scene_marks scene_cuts duration :=
    (hmem duration).mpr (Or.inr (Or.inr rfl))
  have hnonneg : ∀ x ∈ scene_marks scene_cuts duration, 0 ≤ x := by
    intro x hx
    rcases (hmem x).mp hx with rfl | hx | heq
    · exact le_refl 0
    · exact (hcut x hx).1
    · rw [heq]; exact hpos.le
  have hbounded : ∀ x ∈ scene_marks scene_cuts duration, x ≤ duration := by
    intro x hx
    rcases (hmem x).mp hx with rfl | hx | heq
    · exact hpos.le
    · exact (hcut x hx).2
    · exact le_of_eq heq
  obtain ⟨b, rest, habrest, hlastd⟩ :=
    scene_marks_shape (scene_marks scene_cuts duration) duration hpos hsorted h0 hd
      hnonneg hbounded
  have hstrict : List.Chain' (· < ·) (0 :: b :: rest) := by
    rw [← habrest]
    exact (hsorted.lt_of_le hnodup).chain'
  obtain ⟨Sne, Schain, Shead, Slast, Smem⟩ := segments_of_marks_props rest 0 b hstrict
  have hsegs : scene_segments_of scene_cuts duration = segments_of_marks (0 :: b :: rest) := by
    unfold scene_segments_of
    rw [habrest]
  rw [hsegs]
  refine ⟨Sne, Schain, ?_, ?_, Smem⟩
  · intro s hs
    rw [Shead s hs, round3_zero]
  · intro s hs
    rw [Slast s hs, hlastd]

theorem collect_requests_eq_filter (fps : ℚ) (fc : ℤ) :
    ∀ (ts : List ℚ) (last_index : Option ℤ),
      collect_requests fps fc last_index ts =
        ((ts.zip (last_index ::
            ts.map (fun u => some (frame_index_for_timestamp fps u fc)))).filter
          (fun q => !(some (frame_index_for_timestamp fps q.1 fc) == q.2))).map
          (fun q => (q.1, frame_index_for_timestamp fps q.1 fc)) := by
  intro ts
  induction ts with
  | nil => intro last_index; rfl
  | cons t rest ih =>
      intro last_index
      show (if some (frame_index_for_timestamp fps t fc) = last_index
          then collect_requests fps fc last_index rest
          else (t, frame_index_for_timestamp fps t fc) ::
            collect_requests fps fc (some (frame_index_for_timestamp fps t fc)) rest) = _
      rw [List.zip_cons_cons]
      by_cases hskip : some (frame_index_for_timestamp fps t fc) = last_index
      · rw [if_pos hskip, List.filter_cons_of_neg (by simp [hskip]), ← hskip]
        exact ih (some (frame_index_for_timestamp fps t fc))
      · rw [if_neg hskip, List.filter_cons_of_pos (by simp [hskip])]
        simp only [List.map_cons]
        rw [ih (some (frame_index_for_timestamp fps t fc))]

theorem collect_requests_head_ne (fps : ℚ) (fc : ℤ) :
    ∀ (ts : List ℚ) (last_index : Option ℤ) (r : ℚ × ℤ),
      (collect_requests fps fc last_index ts).head? = some r → some r.2 ≠ last_index := by
  intro ts
  induction ts with
  | nil => intro last_index r hr; cases hr
  | cons t rest ih =>
      intro last_index r hr
      rw [show collect_requests fps fc last_index (t :: rest) =
          (if some (frame_index_for_timestamp fps t fc) = last_index
           then collect_requests fps fc last_index rest
           else (t, frame_index_for_timestamp fps t fc) ::
             collect_requests fps fc (some (frame_index_for_timestamp fps t fc)) rest)
        from rfl] at hr
      by_cases hskip : some (frame_index_for_timestamp fps t fc) = last_index
      · rw [if_pos hskip] at hr
        exact ih last_index r hr
      · rw [if_neg hskip, List.head?_cons, Option.some_inj] at hr
        rw [← hr]
        exact hskip

theorem collect_requests_chain_ne (fps : ℚ) (fc : ℤ) :
    ∀ (ts : List ℚ) (last_index : Option ℤ),
      List.Chain' (fun a b : ℚ × ℤ => a.2 ≠ b.2)
        (collect_requests fps fc last_index ts) := by
  intro ts
  induction ts with
  | nil => intro _; exact List.chain'_nil
  | cons t rest ih =>
      intro last_index
      show List.Chain' _ (if some (frame_index_for_timestamp fps t fc) = last_index
        then collect_requests fps fc last_index rest
        else (t, frame_index_for_timestamp fps t fc) ::
          collect_requests fps fc (some (frame_index_for_timestamp fps t fc)) rest)
      by_cases hskip : some (frame_index_for_timestamp fps t fc) = last_index
      · rw [if_pos hskip]
        exact ih last_index
      · rw [if_neg hskip]
        apply List.chain'_cons'.mpr
        refine ⟨?_, ih (some (frame_index_for_timestamp fps t fc))⟩
        intro y hy hcontra
        exact collect_requests_head_ne fps fc rest
          (some (frame_index_for_timestamp fps t fc)) y (Option.mem_def.mp hy)
          (congrArg some hcontra.symm)

theorem collect_requests_fst_sublist (fps : ℚ) (fc : ℤ) :
    ∀ (ts : List ℚ) (last_index : Option ℤ),
      List.Sublist ((collect_requests fps fc last_index ts).map Prod.fst) ts := by
  intro ts
  induction ts with
  | nil => intro _; simp [collect_requests]
  | cons t rest ih =>
      intro last_index
      show List.Sublist ((if some (frame_index_for_timestamp fps t fc) = last_index
        then collect_requests fps fc last_index rest
        else (t, frame_index_for_timestamp fps t fc) ::
          collect_requests fps fc (some (frame_index_for_timestamp fps t fc)) rest).map
          Prod.fst) (t :: rest)
      by_cases hskip : some (frame_index_for_timestamp fps t fc) = last_index
      · rw [if_pos hskip]
        exact (ih last_index).trans (List.sublist_cons_self t rest)
      · rw [if_neg hskip, List.map_cons]
        exact (ih (some (frame_index_for_timestamp fps t fc))).cons₂ t

/-- C8: with a non-empty frame list and a non-empty ordered timestamp
list, the describer collapses exactly the timestamps whose resolved
frame index equals the immediately preceding timestamp's index.  The
output is the per-request map, in original order, over the filtered
timestamp list paired with its predecessor's index (`none` before the
first timestamp, which is therefore always requested); collapsed
timestamps receive no entry at all, so the output length is the number
of non-collapsed timestamps; the requested timestamps form a sublist
of the input (original order), and adjacent requests always resolve to
distinct frames (one request per run). -/
theorem describe_frames_at_times_collapse {β : Type} (fps : ℚ) (fc : ℤ)
    (describe_frame : ℤ → β) (ts : List ℚ)
    (hfc : 0 < fc) (hts : ts ≠ []) :
    describe_frames_at_times fps fc describe_frame ts =
      ((ts.zip ((none : Option ℤ) ::
          ts.map (fun u => some (frame_index_for_timestamp fps u fc)))).filter
        (fun q => !(some (frame_index_for_timestamp fps q.1 fc) == q.2))).map
        (fun q => (round3 q.1, describe_frame (frame_index_for_timestamp fps q.1 fc))) ∧
    List.Sublist ((collect_requests fps fc none ts).map Prod.fst) ts ∧
    (collect_requests fps fc none ts).head? =
      ts.head?.map (fun u => (u, frame_index_for_timestamp fps u fc)) ∧
    List.Chain' (fun a b : ℚ × ℤ => a.2 ≠ b.2) (collect_requests fps fc none ts) := by
  refine ⟨?_, collect_requests_fst_sublist fps fc ts none,
    ?_, collect_requests_chain_ne fps fc ts none⟩
  · unfold describe_frames_at_times
    rw [if_neg (by push_neg; exact ⟨hfc, hts⟩), collect_requests_eq_filter, List.map_map]
    rfl
  · cases ts with
    | nil => exact absurd rfl hts
    | cons t rest =>
        show (if some (frame_index_for_timestamp fps t fc) = none
          then collect_requests fps fc none rest
          else (t, frame_index_for_timestamp fps t fc) ::
            collect_requests fps fc (some (frame_index_for_timestamp fps t fc)) rest).head? = _
        rw [if_neg (by simp), List.head?_cons]
        rfl

/-- Witness for C8: with `fps = 2` and 10 frames, the timestamps
`[0, 1/10]` both resolve to frame 0, so only the first is requested. -/
theorem describe_frames_at_times_collapse_witness :
    describe_frames_at_times 2 10 (fun i => i) [0, 1/10] =
      (([(0 : ℚ), 1/10].zip ((none : Option ℤ) ::
          [(0 : ℚ), 1/10].map (fun u => some (frame_index_for_timestamp 2 u 10)))).filter
        (fun q => !(some (frame_index_for_timestamp 2 q.1 10) == q.2))).map
        (fun q => (round3 q.1, frame_index_for_timestamp 2 q.1 10)) ∧
    List.Sublist ((collect_requests 2 10 none [0, 1/10]).map Prod.fst) [0, 1/10] ∧
    (collect_requests 2 10 none [0, 1/10]).head? =
      [(0 : ℚ), 1/10].head?.map (fun u => (u, frame_index_for_timestamp 2 u 10)) ∧
    List.Chain' (fun a b : ℚ × ℤ => a.2 ≠ b.2) (collect_requests 2 10 none [0, 1/10]) :=
  describe_frames_at_times_collapse 2 10 (fun i => i) [0, 1/10]
    (by norm_num) (by simp)

theorem justify_fold_skip (allowed : List ℚ) (m : ℚ → String) (tv : ℚ) (j : String)
    (hnot : round3 tv ∉ allowed) :
    justify_fold allowed m (ResponseItem.mk (some tv) j) = m := by
  show (if round3 tv ∈ allowed then _ else m) = m
  exact if_neg hnot

theorem justify_chunk_map_unaffected (allowed : List ℚ) (x : ℚ) :
    ∀ (items : List ResponseItem) (m : ℚ → String),
      (∀ item ∈ items, ∀ tv, item.t = some tv → round3 tv ≠ x) →
      (items.foldl (justify_fold allowed) m) x = m x := by
  intro items
  induction items with
  | nil => intro m _; rfl
  | cons item rest ih =>
      intro m hall
      rw [List.foldl_cons]
      rw [ih _ (fun it hit tv htv => hall it (List.mem_cons_of_mem item hit) tv htv)]
      cases hit : item.t with
      | none => simp [justify_fold, hit]
      | some tv =>
          have hne : round3 tv ≠ x := hall item (List.mem_cons_self item rest) tv hit
          simp only [justify_fold, hit]
          by_cases hmem : round3 tv ∈ allowed
          · rw [if_pos hmem]
            exact if_neg (fun h => hne h.symm)
          · rw [if_neg hmem]

/-- C9: entries of a justification response whose (rounded) `t` is not
in the chunk's allowed timestamp set are discarded without any effect
on the result; the output always consists of exactly one entry per
chunk second, in order, with `t = round3 s`; and a chunk second that no
response item addresses receives `justification = ""`. -/
theorem justify_chunk_spec (seconds : List ℚ) (items : List ResponseItem) :
    ((justify_chunk seconds items).map (fun e => e.t) = seconds.map round3) ∧
    (∀ (pre post : List ResponseItem) (tv : ℚ) (j : String),
      round3 tv ∉ seconds.map round3 →
      justify_chunk seconds (pre ++ ResponseItem.mk (some tv) j :: post) =
        justify_chunk seconds (pre ++ post)) ∧
    (∀ s ∈ seconds,
      (∀ item ∈ items, ∀ tv, item.t = some tv → round3 tv ≠ round3 s) →
      JustificationEntry.mk (round3 s) "" ∈ justify_chunk seconds items) := by
  refine ⟨?_, ?_, ?_⟩
  · simp only [justify_chunk]
    split
    · rename_i h
      rw [h]
      rfl
    · rw [List.map_map]
      rfl
  · intro pre post tv j hnot
    simp only [justify_chunk]
    split
    · rfl
    · rw [List.foldl_append, List.foldl_cons,
        justify_fold_skip (seconds.map round3) _ tv j hnot, ← List.foldl_append]
  · intro s hs hnone
    simp only [justify_chunk]
    rw [if_neg (List.ne_nil_of_mem hs)]
    have hmap := justify_chunk_map_unaffected (seconds.map round3) (round3 s) items
      (fun _ => "") (fun it hit tv htv => hnone it hit tv htv)
    refine List.mem_map.mpr ⟨s, hs, ?_⟩
    rw [hmap]

/-- Witness for C9 at the spec's own scenario: a response entry with
`t = 4.999` against allowed set `{5.0}` is discarded and the real
`t = 5.0` entry gets an empty justification. -/
theorem justify_chunk_spec_witness :
    JustificationEntry.mk (round3 5) "" ∈
      justify_chunk [5] [ResponseItem.mk (some (4999/1000)) "offbeat"] :=
  (justify_chunk_spec [5] [ResponseItem.mk (some (4999/1000)) "offbeat"]).2.2
    5 (List.mem_singleton.mpr rfl)
    (by
      intro item hitem tv htv
      rw [List.mem_singleton.mp hitem] at htv
      rw [Option.some_inj.mp htv.symm]
      norm_num [round3, round_eq])

theorem pair_ne_iff {a b c d : ℤ} : (a, b) ≠ (c, d) ↔ a ≠ c ∨ b ≠ d := by
  rw [Ne, Prod.mk.injEq, not_and_or]

theorem bg_step_markers
    (summarize : List Caption → List AudioSegment → SummarizerState →
      String × SummarizerState)
    (captions : List Caption) (audio_segments : List AudioSegment)
    (window_sec update_sec : ℚ) (st : AggregatorState) (k : ℕ) :
    ((bg_step summarize captions audio_segments window_sec update_sec st k).last_caption_marker,
     (bg_step summarize captions audio_segments window_sec update_sec st k).last_audio_marker) =
      tick_pair captions audio_segments window_sec ((k : ℚ) * update_sec) := by
  simp only [bg_step]
  split
  · rfl
  · rename_i h
    push_neg at h
    exact Prod.ext_iff.mpr ⟨h.1.symm, h.2.symm⟩

theorem bg_step_call_ticks
    (summarize : List Caption → List AudioSegment → SummarizerState →
      String × SummarizerState)
    (captions : List Caption) (audio_segments : List AudioSegment)
    (window_sec update_sec : ℚ) (st : AggregatorState) (k : ℕ) :
    (bg_step summarize captions audio_segments window_sec update_sec st k).call_ticks =
      st.call_ticks ++
        (if tick_pair captions audio_segments window_sec ((k : ℚ) * update_sec) ≠
            (st.last_caption_marker, st.last_audio_marker) then [k] else []) := by
  simp only [bg_step]
  split
  · rename_i h
    rw [if_pos (pair_ne_iff.mpr h)]
  · rename_i h
    push_neg at h
    rw [if_neg (fun hc => hc (Prod.ext_iff.mpr ⟨h.1, h.2⟩)), List.append_nil]

theorem bg_fold_markers
    (summarize : List Caption → List AudioSegment → SummarizerState →
      String × SummarizerState)
    (captions : List Caption) (audio_segments : List AudioSegment)
    (entities : List String) (window_sec update_sec : ℚ) :
    ∀ m,
      ((((List.range m).foldl
          (bg_step summarize captions audio_segments window_sec update_sec)
          (bg_init entities))).last_caption_marker,
       (((List.range m).foldl
          (bg_step summarize captions audio_segments window_sec update_sec)
          (bg_init entities))).last_audio_marker) =
        prev_tick_pair captions audio_segments window_sec update_sec m := by
  intro m
  cases m with
  | zero => rfl
  | succ m =>
      rw [List.range_succ, List.foldl_append, List.foldl_cons, List.foldl_nil,
        bg_step_markers]
      unfold prev_tick_pair
      rw [if_neg (Nat.succ_ne_zero m)]
      congr 1

theorem bg_fold_call_ticks
    (summarize : List Caption → List AudioSegment → SummarizerState →
      String × SummarizerState)
    (captions : List Caption) (audio_segments : List AudioSegment)
    (entities : List String) (window_sec update_sec : ℚ) :
    ∀ m,
      (((List.range m).foldl
          (bg_step summarize captions audio_segments window_sec update_sec)
          (bg_init entities))).call_ticks =
        (List.range m).filter (fun (k : ℕ) =>
          decide (tick_pair captions audio_segments window_sec ((k : ℚ) * update_sec) ≠
            prev_tick_pair captions audio_segments window_sec update_sec k)) := by
  intro m
  induction m with
  | zero => rfl
  | succ m ih =>
      rw [List.range_succ, List.foldl_append, List.foldl_cons, List.foldl_nil,
        bg_step_call_ticks, List.filter_append, ih]
      congr 1
      rw [bg_fold_markers]
      by_cases hne : tick_pair captions audio_segments window_sec ((m : ℚ) * update_sec) ≠
          prev_tick_pair captions audio_segments window_sec update_sec m
      · rw [if_pos hne, List.filter_cons_of_pos (by simp [hne]), List.filter_nil]
      · rw [if_neg hne, List.filter_cons_of_neg (by simp [hne]), List.filter_nil]

/-- C7: the `while t <= duration` loop visits exactly the ticks
`t = k * update_sec` with `k*update_sec ≤ duration` (none for a
negative duration); the summarizer is called at tick `k` iff the
(newest-caption-id, newest-audio-index) pair at tick `k` differs from
the pair recorded at the previous call (markers initialized to
`(-1, -1)` and always equal to the previous tick's pair afterwards), so
exactly the marker-pair transitions produce calls (`M` transitions
across the tick range give `M` calls); and when both `captions` and
`audio_segments` are empty no ticks run: `background_updates` is empty
with zero summarizer calls. -/
theorem background_aggregate_spec
    (summarize : List Caption → List AudioSegment → SummarizerState →
      String × SummarizerState)
    (captions : List Caption) (audio_segments : List AudioSegment)
    (entities : List String) (window_sec update_sec duration : ℚ)
    (hstep : 0 < update_sec) :
    (∀ k : ℕ, k < num_ticks duration update_sec ↔ (k : ℚ) * update_sec ≤ duration) ∧
    (captions = [] → audio_segments = [] →
      (background_aggregate summarize captions audio_segments entities
        window_sec update_sec duration).background_updates = [] ∧
      (background_aggregate summarize captions audio_segments entities
        window_sec update_sec duration).call_ticks = []) ∧
    (¬ (captions = [] ∧ audio_segments = []) →
      (background_aggregate summarize captions audio_segments entities
          window_sec update_sec duration).call_ticks =
        (List.range (num_ticks duration update_sec)).filter (fun (k : ℕ) =>
          decide (tick_pair captions audio_segments window_sec ((k : ℚ) * update_sec) ≠
            prev_tick_pair captions audio_segments window_sec update_sec k)) ∧
      (background_aggregate summarize captions audio_segments entities
          window_sec update_sec duration).call_ticks.length =
        (List.range (num_ticks duration update_sec)).countP (fun (k : ℕ) =>
          decide (tick_pair captions audio_segments window_sec ((k : ℚ) * update_sec) ≠
            prev_tick_pair captions audio_segments window_sec update_sec k))) := by
  refine ⟨?_, ?_, ?_⟩
  · intro k
    unfold num_ticks
    split
    · rename_i hneg
      constructor
      · intro h; omega
      · intro h
        have h0 : (0 : ℚ) ≤ (k : ℚ) * update_sec :=
          mul_nonneg (Nat.cast_nonneg k) hstep.le
        linarith
    · rename_i hneg
      push_neg at hneg
      have hfloor : 0 ≤ ⌊duration / update_sec⌋ :=
        Int.floor_nonneg.mpr (div_nonneg hneg hstep.le)
      constructor
      · intro h
        have hk : (k : ℤ) ≤ ⌊duration / update_sec⌋ := by omega
        have : (k : ℚ) ≤ duration / update_sec := le_trans (by exact_mod_cast Int.le_floor.mp hk) (le_refl _)
        calc (k : ℚ) * update_sec ≤ (duration / update_sec) * update_sec := by
              exact mul_le_mul_of_nonneg_right this hstep.le
          _ = duration := div_mul_cancel₀ duration (ne_of_gt hstep)
      · intro h
        have : (k : ℚ) ≤ duration / update_sec := (le_div_iff₀ hstep).mpr h
        have hk : (k : ℤ) ≤ ⌊duration / update_sec⌋ := Int.le_floor.mpr (by exact_mod_cast this)
        omega
  · intro hc ha
    unfold background_aggregate
    rw [if_pos ⟨hc, ha⟩]
    exact ⟨rfl, rfl⟩
  · intro hne
    unfold background_aggregate
    rw [if_neg hne]
    refine ⟨bg_fold_call_ticks summarize captions audio_segments entities
      window_sec update_sec _, ?_⟩
    rw [bg_fold_call_ticks summarize captions audio_segments entities
      window_sec update_sec _, List.countP_eq_length_filter]

/-- Witness for C7: one caption at `t = 0`, no audio, `W = 10`,
`S = 5`, duration 10 — the pair becomes `(0, -1)` at tick 0 and never
changes, so the summarizer is called exactly once, at tick 0. -/
theorem background_aggregate_spec_witness :
    (∀ k : ℕ, k < num_ticks 10 5 ↔ (k : ℚ) * 5 ≤ 10) ∧
    ([Caption.mk 0 0 "" [] [] [] "" 0] = [] → ([] : List AudioSegment) = [] →
      (background_aggregate (fun _ _ st => ("hi", st)) [Caption.mk 0 0 "" [] [] [] "" 0]
        [] [] 10 5 10).background_updates = [] ∧
      (background_aggregate (fun _ _ st => ("hi", st)) [Caption.mk 0 0 "" [] [] [] "" 0]
        [] [] 10 5 10).call_ticks = []) ∧
    (¬ ([Caption.mk 0 0 "" [] [] [] "" 0] = [] ∧ ([] : List AudioSegment) = []) →
      (background_aggregate (fun _ _ st => ("hi", st)) [Caption.mk 0 0 "" [] [] [] "" 0]
          [] [] 10 5 10).call_ticks =
        (List.range (num_ticks 10 5)).filter (fun (k : ℕ) =>
          decide (tick_pair [Caption.mk 0 0 "" [] [] [] "" 0] [] 10 ((k : ℚ) * 5) ≠
            prev_tick_pair [Caption.mk 0 0 "" [] [] [] "" 0] [] 10 5 k)) ∧
      (background_aggregate (fun _ _ st => ("hi", st)) [Caption.mk 0 0 "" [] [] [] "" 0]
          [] [] 10 5 10).call_ticks.length =
        (List.range (num_ticks 10 5)).countP (fun (k : ℕ) =>
          decide (tick_pair [Caption.mk 0 0 "" [] [] [] "" 0] [] 10 ((k : ℚ) * 5) ≠
            prev_tick_pair [Caption.mk 0 0 "" [] [] [] "" 0] [] 10 5 k))) :=
  background_aggregate_spec (fun _ _ st => ("hi", st))
    [Caption.mk 0 0 "" [] [] [] "" 0] [] [] 10 5 10 (by norm_num)

/-- C1 evaluation at the failing input: with per-second timestamps
`[0, 60, 120]`, `JUSTIFY_CHUNK_SEC = 60` and `duration = 120`, the
timestamp `60` lies on the shared boundary of the chunks `[0, 60]` and
`[60, 120]` (both filters are inclusive), so the justification timeline
contains two entries with `t = 60` (and two with `t = 120`, shared by
`[60, 120]` and the degenerate final chunk `[120, 120]`) although the
per-second set contains each timestamp once — refuting "exactly one
entry per per-second timestamp". -/
theorem build_justification_timeline_boundary_duplicate :
    (build_justification_timeline (fun _ => []) [0, 60, 120] 60 120).map
        (fun e => e.t) = [0, 60, 60, 120, 120] ∧
    ((build_justification_timeline (fun _ => []) [0, 60, 120] 60 120).countP
        (fun e => e.t == 60) = 2 ∧
      ([(0 : ℚ), 60, 120].countP (fun s => s == 60)) = 1) := by
  have hfloor : ⌊(120 : ℚ) / 60⌋ = 2 := by norm_num
  have hnum : num_ticks 120 60 = 3 := by
    rw [num_ticks, if_neg (by norm_num), hfloor]
    rfl
  have htl : build_justification_timeline (fun _ => []) [0, 60, 120] 60 120 =
      [⟨0, ""⟩, ⟨60, ""⟩, ⟨60, ""⟩, ⟨120, ""⟩, ⟨120, ""⟩] := by
    simp only [build_justification_timeline]
    rw [if_neg (by simp), show (max 1 60 : ℚ) = 60 from by norm_num, hnum]
    rw [show List.range 3 = [0, 1, 2] from rfl]
    norm_num [List.flatMap_cons, List.flatMap_nil, justify_chunk, justify_fold,
      round3, round_eq]
  rw [htl]
  refine ⟨rfl, by norm_num, by norm_num⟩

/-- Witness for C5 at a concrete cut list. -/
theorem scene_segments_partition_witness :
    scene_segments_of [3/2] 10 ≠ [] ∧
    List.Chain' (fun s u => s.t_end = u.t_start) (scene_segments_of [3/2] 10) ∧
    (∀ s, (scene_segments_of [3/2] 10).head? = some s → s.t_start = 0) ∧
    (∀ s, (scene_segments_of [3/2] 10).getLast? = some s → s.t_end = round3 10) ∧
    (∀ s ∈ scene_segments_of [3/2] 10, s.t_start ≤ s.t_end) :=
  scene_segments_partition [3/2] 10 (by norm_num) (by norm_num)

end ActionTimeline

